import Mathlib

/-!
Shallow embedding of the tile-partition / stitch / resize engine of
`helpers.py` (functions `resize`, `make_tiles`, `stitch_tiles`), together
with proofs about the embedded code.  Pixel arrays are modelled as their
shape plus a total sample function; numpy integer samples are modelled as
`Int`.  Machine floats appear only in `resize`
(`ratio = width / arr.shape[1]`, `height = int(arr.shape[0] * ratio)`);
they are modelled exactly as binary64 round-to-nearest-even values kept in
mantissa-times-two-power form, over plain natural number arithmetic.
-/

set_option linter.unusedVariables false

namespace CityPerimeter

/-- Element dtype tag of a numpy array (the numeric kinds this pipeline meets). -/
inductive DType
  | uint8 | uint16 | int64 | float32 | float64
  deriving DecidableEq

/-- Runtime errors raised by the modelled python code paths: python
`ZeroDivisionError`, numpy `ValueError`, numpy `IndexError`, and an OpenCV
assertion failure inside `cv2.resize`. -/
inductive Err
  | zeroDivision
  | valueError
  | indexError
  | cvError
  deriving DecidableEq

/-- A channels-last rank-3 numpy array `(rows, cols, channels)`: shape, dtype
tag, and a total sample function (indices outside the shape are irrelevant
junk; every statement below constrains in-range indices only). -/
structure Arr3 where
  rows : ℕ
  cols : ℕ
  chans : ℕ
  dtype : DType
  data : ℕ → ℕ → ℕ → ℤ

/-- A rank-4 numpy array of stacked tiles `(num_tiles, rows, cols, channels)`,
as consumed by `stitch_tiles`. -/
structure Arr4 where
  n : ℕ
  rows : ℕ
  cols : ℕ
  chans : ℕ
  dtype : DType
  data : ℕ → ℕ → ℕ → ℕ → ℤ

/-! ## Binary64 arithmetic model

Doubles are modelled as exact values `m * 2 ^ e` with a 53-bit mantissa
`m : ℕ` and exponent `e : ℤ` (sign handled at the use site).  Subnormal
underflow and overflow are not modelled: every value met here lies well
inside the normal range.  Rounding is round-to-nearest, ties-to-even, the
IEEE-754 default used by CPython and numpy. -/

/-- Fuel-driven binary length: `bitLenAux fuel n` is the number of binary
digits of `n` provided `fuel ≥ n`. -/
def bitLenAux : ℕ → ℕ → ℕ
  | 0, _ => 0
  | fuel + 1, n => if n = 0 then 0 else bitLenAux fuel (n / 2) + 1

/-- Number of binary digits of `n` (so `bitLen 0 = 0`, `bitLen 5 = 3`). -/
def bitLen (n : ℕ) : ℕ :=
  bitLenAux n n

/-- Round a natural number to 53 significant bits, returning the rounded
mantissa and the power of two it carries, so that the value is
`m * 2 ^ e` with `e ≥ 0`.  Ties go to the even mantissa. -/
def roundNat (x : ℕ) : ℕ × ℤ :=
  let s := bitLen x
  if s ≤ 53 then (x, 0)
  else
    let k := s - 53
    let q := x / 2 ^ k
    let r := x % 2 ^ k
    let half := 2 ^ (k - 1)
    let m := if r < half then q else if half < r then q + 1
      else if q % 2 = 0 then q else q + 1
    if m = 2 ^ 53 then (2 ^ 52, (k : ℤ) + 1) else (m, (k : ℤ))

/-- Correctly rounded binary64 quotient of two positive naturals: the double
nearest to `a / b`, as a mantissa `m` and exponent `e` with value
`m * 2 ^ e`.  The quotient is scaled so that at least 54 quotient bits are
exact, and the division remainder supplies the sticky bit. -/
def roundQ (a b : ℕ) : ℕ × ℤ :=
  if a = 0 ∨ b = 0 then (0, 0)
  else
    let t : ℤ := 54 + (bitLen b : ℤ) - (bitLen a : ℤ)
    let nN : ℕ := if 0 ≤ t then a * 2 ^ t.toNat else a
    let dD : ℕ := if 0 ≤ t then b else b * 2 ^ (-t).toNat
    let q := nN / dD
    let r := nN % dD
    let s := bitLen q
    let k := s - 53
    let qq := q / 2 ^ k
    let rem := q % 2 ^ k
    let half := 2 ^ (k - 1)
    let sticky := r ≠ 0
    let m := if rem < half then qq
      else if half < rem then qq + 1
      else if sticky then qq + 1
      else if qq % 2 = 0 then qq else qq + 1
    if m = 2 ^ 53 then (2 ^ 52, (k : ℤ) + 1 - t) else (m, (k : ℤ) - t)

/-- Binary64 product of a natural number with a nonnegative double
`m * 2 ^ e`: multiply the mantissas exactly, then round back to 53 bits. -/
def flMulNat (h : ℕ) (me : ℕ × ℤ) : ℕ × ℤ :=
  let p := roundNat (h * me.1)
  (p.1, me.2 + p.2)

/-- Truncation toward zero of the nonnegative double `m * 2 ^ e`, as python
`int()` applied to a nonnegative float. -/
def truncDyadic (me : ℕ × ℤ) : ℕ :=
  if 0 ≤ me.2 then me.1 * 2 ^ me.2.toNat else me.1 / 2 ^ (-me.2).toNat

/-- Model of `int(arr.shape[0] * (width / arr.shape[1]))` for a nonnegative
width: both the division and the product are rounded to binary64. -/
def floatHeightPos (hh ww wn : ℕ) : ℕ :=
  truncDyadic (flMulNat hh (roundQ wn ww))

/-- Model of `height = int(arr.shape[0] * ratio)` with
`ratio = width / arr.shape[1]` for an arbitrary integer width; python
`int()` truncates toward zero and the float operations are odd in the
width, so the negative case mirrors the positive one. -/
def floatHeight (hh ww : ℕ) (w : ℤ) : ℤ :=
  if w < 0 then -(floatHeightPos hh ww (-w).toNat : ℤ)
  else (floatHeightPos hh ww w.toNat : ℤ)

/-- Exactness predicate: the double `m * 2 ^ e` equals the rational `a / b`
on the nose (stated multiplicatively to stay inside natural arithmetic). -/
def dyadicEq (m : ℕ) (e : ℤ) (a b : ℕ) : Prop :=
  if 0 ≤ e then m * 2 ^ e.toNat * b = a else m * b = a * 2 ^ (-e).toNat

instance (m : ℕ) (e : ℤ) (a b : ℕ) : Decidable (dyadicEq m e a b) := by
  unfold dyadicEq
  split <;> infer_instance

/-! ## resize

Model of `helpers.resize`:
```
ratio = width / arr.shape[1]
height = int(arr.shape[0] * ratio)
new_shape = (width, height)
arr_resize = cv2.resize(arr, new_shape, interpolation = cv2.INTER_AREA)
```
The division raises `ZeroDivisionError` when `arr.shape[1] == 0`;
`cv2.resize` rejects an empty `dsize` (a nonpositive target width or
height) with an assertion failure, and otherwise returns an array of shape
`(height, width, channels)` whose samples are produced by the external
INTER_AREA interpolation, taken here as an oracle argument `interp`. -/
def resize (interp : ℕ → ℕ → ℕ → ℤ) (arr : Arr3) (width : ℤ) : Except Err Arr3 :=
  if arr.cols = 0 then .error .zeroDivision
  else
    let height := floatHeight arr.rows arr.cols width
    if width ≤ 0 ∨ height ≤ 0 then .error .cvError
    else .ok ⟨height.toNat, width.toNat, arr.chans, arr.dtype, interp⟩

/-! ## make_tiles -/

/-- Reflected index for numpy reflect padding on an axis of length `n` with
pad width `p`: padded position `i` (out of `n + 2p` positions) reads source
position `reflIdx n p i`.  Reflect mode mirrors without repeating the edge
sample, which for repeated reflection is the triangular wave of period
`2n - 2`; numpy treats a length-1 axis like edge padding. -/
def reflIdx (n p i : ℕ) : ℕ :=
  if n ≤ 1 then 0
  else
    let t : ℤ := (i : ℤ) - (p : ℤ)
    let m : ℤ := t % (2 * (n : ℤ) - 2)
    (if m < (n : ℤ) then m else 2 * (n : ℤ) - 2 - m).toNat

/-- Model of numpy reflect padding of one tile with pad widths
`((pad, pad), (pad, pad), (0, 0))`: both spatial axes grow by `2 * pad`,
the channel axis is untouched, and padded samples read through `reflIdx`. -/
def padReflect (t : Arr3) (p : ℕ) : Arr3 :=
  ⟨t.rows + 2 * p, t.cols + 2 * p, t.chans, t.dtype,
    fun i j k => t.data (reflIdx t.rows p i) (reflIdx t.cols p j) k⟩

/-- Model of python `range(0, stop, step)` for nonnegative `stop`: empty when
the step is nonpositive (the start is 0), else the multiples of the step
below `stop`. -/
def pyRange (stop : ℕ) (step : ℤ) : List ℕ :=
  if step ≤ 0 then []
  else (List.range ((stop + step.toNat - 1) / step.toNat)).map (fun m => m * step.toNat)

/-- Model of the slice `arr[x:x+a, y:y+b]` taken from the origin-cropped view
`arr[0:rcrop, 0:ccrop]`: slice bounds clamp at the view shape, and samples
read through to the backing array. -/
def sliceTile (arr : Arr3) (rcrop ccrop x y a b : ℕ) : Arr3 :=
  ⟨min (x + a) rcrop - x, min (y + b) ccrop - y, arr.chans, arr.dtype,
    fun i j k => arr.data (x + i) (y + j) k⟩

/-- Model of `helpers.make_tiles` on an in-memory rank-3 array (the branch
that loads a path through rasterio or PIL is external I/O, out of scope):
grid counts are `int(arr.shape[1] / n_col_per_chunk)` and
`int(arr.shape[0] / n_row_per_chunk)` — truncating division, raising
`ZeroDivisionError` on a zero tile dimension, modelled by `Int.tdiv` which
truncates toward zero exactly as python `int()` does (the float quotient of
array dimensions is exact for every dimension below `2 ^ 26`, far beyond
any addressable image); the array is cropped to whole chunks from the
origin, tiles are emitted by an outer loop over row starts and an inner
loop over column starts, and a nonzero pad reflect-pads every tile. -/
def make_tiles (arr : Arr3) (tr tc : ℤ) (pad : ℕ) : Except Err (List Arr3 × ℤ × ℤ) :=
  if tr = 0 ∨ tc = 0 then .error .zeroDivision
  else
    let nx : ℤ := Int.tdiv arr.cols tc
    let ny : ℤ := Int.tdiv arr.rows tr
    let rcrop : ℕ := min (tr * ny).toNat arr.rows
    let ccrop : ℕ := min (tc * nx).toNat arr.cols
    let base := (pyRange rcrop tr).flatMap fun x =>
      (pyRange ccrop tc).map fun y => sliceTile arr rcrop ccrop x y tr.toNat tc.toNat
    let tiles := if pad = 0 then base else base.map fun t => padReflect t pad
    .ok (tiles, nx, ny)

/-- Model of `np.asarray` on the (uniform) list of tiles: stack into a rank-4
array, dims and dtype read from the first tile; the empty stack gets the
numpy default float64. -/
def stackTiles (l : List Arr3) : Arr4 :=
  ⟨l.length,
   (l.head?.map Arr3.rows).getD 0,
   (l.head?.map Arr3.cols).getD 0,
   (l.head?.map Arr3.chans).getD 0,
   (l.head?.map Arr3.dtype).getD .float64,
   fun t i j k => ((l[t]?.map fun a => a.data i j k)).getD 0⟩

/-! ## stitch_tiles -/

/-- Post-crop view `tile_arr[ndx, crop:-crop, crop:-crop]` of tile `ndx` (the
whole tile when `crop == 0`, mirroring the python branch on `if crop:`); a
slice from `crop` to `-crop` keeps `max 0 (len - 2*crop)` entries, which is
truncated natural subtraction. -/
def tileSlice (ta : Arr4) (ndx crop : ℕ) : Arr3 :=
  if crop = 0 then ⟨ta.rows, ta.cols, ta.chans, ta.dtype, fun i j k => ta.data ndx i j k⟩
  else ⟨ta.rows - 2 * crop, ta.cols - 2 * crop, ta.chans, ta.dtype,
    fun i j k => ta.data ndx (crop + i) (crop + j) k⟩

/-- numpy broadcast compatibility of a rank-3 source shape `(a, b, c)` with
the target slice shape `(p, q, r)` under assignment: every source axis must
match or have length 1. -/
def bcOk (a b c p q r : ℕ) : Bool :=
  (a == p || a == 1) && (b == q || b == 1) && (c == r || c == 1)

/-- Broadcast source index: a length-1 source axis always reads index 0. -/
def bIdx (s i : ℕ) : ℕ :=
  if s = 1 then 0 else i

/-- The slice assignment writing `tile` over the block of the accumulator at
rows `[i0, i0 + trpt)` and cols `[j0, j0 + tcpt)`, all channels: dims and
dtype unchanged, samples inside the block replaced (broadcast on length-1
source axes; the store into the float64 buffer is exact for the integer
samples modelled here). -/
def placeTile (acc : Arr3) (i0 j0 trpt tcpt : ℕ) (tile : Arr3) : Arr3 :=
  ⟨acc.rows, acc.cols, acc.chans, acc.dtype, fun r c k =>
    if i0 ≤ r ∧ r < i0 + trpt ∧ j0 ≤ c ∧ c < j0 + tcpt then
      tile.data (bIdx tile.rows (r - i0)) (bIdx tile.cols (c - j0)) (bIdx tile.chans k)
    else acc.data r c k⟩

/-- One iteration of the stitch loop at flat index `ndx`: numpy unravel of
`ndx` over `(n_tiles_y, n_tiles_x)` raises `ValueError` when `ndx` is
outside the grid, and the slice assignment raises `ValueError` when the
post-crop tile does not broadcast onto the target block. -/
def stitchStep (ta : Arr4) (nx ny trpt tcpt crop : ℕ) (acc : Arr3) (ndx : ℕ) :
    Except Err Arr3 :=
  if ny * nx ≤ ndx then .error .valueError
  else
    let i := ndx / nx * trpt
    let j := ndx % nx * tcpt
    let tile := tileSlice ta ndx crop
    if bcOk tile.rows tile.cols tile.chans trpt tcpt ta.chans then
      .ok (placeTile acc i j trpt tcpt tile)
    else .error .valueError

/-- Sequential run of `stitchStep` over the given flat indices, stopping at
the first error, exactly like the python for-loop. -/
def stitchLoop (ta : Arr4) (nx ny trpt tcpt crop : ℕ) :
    Arr3 → List ℕ → Except Err Arr3
  | acc, [] => .ok acc
  | acc, ndx :: rest =>
    match stitchStep ta nx ny trpt tcpt crop acc ndx with
    | .error e => .error e
    | .ok acc2 => stitchLoop ta nx ny trpt tcpt crop acc2 rest

/-- Model of `helpers.stitch_tiles` on a rank-4 tile array: allocate
`np.zeros((n_row_per_tile*n_tiles_y, n_col_per_tile*n_tiles_x, n_channels))`
(numpy default dtype float64), then place every tile.  Grid counts are
taken as naturals; the rank guard on the input (reading the channel count
from the fourth axis) is covered by `stitch_tiles_shape` below. -/
def stitch_tiles (ta : Arr4) (nx ny tcpt trpt crop : ℕ) : Except Err Arr3 :=
  stitchLoop ta nx ny trpt tcpt crop
    ⟨trpt * ny, tcpt * nx, ta.chans, .float64, fun _ _ _ => 0⟩
    (List.range ta.n)

/-! ## Rank-generic shape fragments

The two rank guards of the engine live outside the rank-3 data model: numpy
pad with a 3-axis pad width rejects arrays of any other rank, and
`stitch_tiles` reads `tile_arr.shape[3]` before anything else.  These two
code points are modelled on bare shape lists. -/

/-- Shape-only model of numpy pad with pad widths
`((pad, pad), (pad, pad), (0, 0))`: numpy matches the pad-width list
against the array rank and raises `ValueError` unless the rank is 3. -/
def npPad3Shape (shape : List ℕ) (pad : ℕ) : Except Err (List ℕ) :=
  if shape.length = 3 then .ok (shape.zipWith (fun d w => d + 2 * w) [pad, pad, 0])
  else .error .valueError

/-- Shape-only, rank-generic model of `make_tiles`: the same control flow as
`make_tiles`, tracking only tile shapes — slicing the first two axes keeps
every trailing axis, and the pad branch sends each produced tile through
`npPad3Shape`.  Reading shape components of an array of rank below 2
raises `IndexError`. -/
def make_tiles_shape (shape : List ℕ) (tr tc : ℤ) (pad : ℕ) :
    Except Err (List (List ℕ) × ℤ × ℤ) := do
  let rows ← match shape[0]? with | some v => Except.ok v | none => Except.error Err.indexError
  let cols ← match shape[1]? with | some v => Except.ok v | none => Except.error Err.indexError
  if tr = 0 ∨ tc = 0 then Except.error Err.zeroDivision
  else
    let nx := Int.tdiv cols tc
    let ny := Int.tdiv rows tr
    let rcrop := min (tr * ny).toNat rows
    let ccrop := min (tc * nx).toNat cols
    let base := (pyRange rcrop tr).flatMap fun x =>
      (pyRange ccrop tc).map fun y =>
        (min (x + tr.toNat) rcrop - x) :: (min (y + tc.toNat) ccrop - y) :: shape.drop 2
    if pad = 0 then Except.ok (base, nx, ny)
    else do
      let padded ← base.mapM (fun s => npPad3Shape s pad)
      Except.ok (padded, nx, ny)

/-- Shape-only model of the first statement of `stitch_tiles`, reading
`tile_arr.shape[3]`: a tile array without a fourth axis raises
`IndexError` before anything else runs. -/
def stitch_tiles_shape (shape : List ℕ) : Except Err ℕ :=
  match shape[3]? with
  | some v => Except.ok v
  | none => Except.error Err.indexError

/-! ## Characterization lemmas for make_tiles -/

theorem pyRange_nonpos (stop : ℕ) (step : ℤ) (h : step ≤ 0) : pyRange stop step = [] := by
  simp [pyRange, h]

theorem pyRange_mul (q t : ℕ) (ht : 0 < t) :
    pyRange (t * q) (t : ℤ) = (List.range q).map (fun m => m * t) := by
  have hst : ¬ ((t : ℤ) ≤ 0) := by exact_mod_cast Nat.not_le.mpr ht
  have htn : (t : ℤ).toNat = t := Int.toNat_ofNat t
  have hcount : (t * q + t - 1) / t = q := by
    have h1 : t * q + t - 1 = t * q + (t - 1) := by omega
    rw [h1, Nat.mul_add_div ht, Nat.div_eq_of_lt (by omega), Nat.add_zero]
  simp only [pyRange, if_neg hst, htn, hcount]

theorem pyRange_zero (step : ℤ) : pyRange 0 step = [] := by
  by_cases h : step ≤ 0
  · simp [pyRange, h]
  · have h1 : 0 < step.toNat := by omega
    simp only [pyRange, if_neg h]
    have h2 : (0 + step.toNat - 1) / step.toNat = 0 := Nat.div_eq_of_lt (by omega)
    rw [h2]
    simp

theorem range_flatMap_map {α : Type} (f : ℕ → ℕ → α) (n m : ℕ) :
    (List.range n).flatMap (fun a => (List.range m).map (f a)) =
      (List.range (n * m)).map (fun t => f (t / m) (t % m)) := by
  induction n with
  | zero => simp
  | succ n ih =>
    rw [List.range_succ, List.flatMap_append, ih, Nat.succ_mul, List.range_add,
      List.map_append, List.map_map]
    congr 1
    · simp only [List.flatMap_cons, List.flatMap_nil, List.append_nil]
      apply List.map_congr_left
      intro x hx
      have hxm : x < m := List.mem_range.mp hx
      have hm : 0 < m := by omega
      have hdiv : (n * m + x) / m = n := by
        rw [Nat.mul_comm n m, Nat.mul_add_div hm, Nat.div_eq_of_lt hxm, Nat.add_zero]
      have hmod : (n * m + x) % m = x := by
        rw [Nat.mul_comm n m, Nat.mul_add_mod, Nat.mod_eq_of_lt hxm]
      simp [Function.comp, hdiv, hmod]

/-- The tile of `make_tiles` at flat index `ndx` (before padding): the block
slice at row band `ndx / grid_cols` and column band `ndx % grid_cols`. -/
def mtBase (arr : Arr3) (tr tc : ℕ) (ndx : ℕ) : Arr3 :=
  sliceTile arr (tr * (arr.rows / tr)) (tc * (arr.cols / tc))
    (ndx / (arr.cols / tc) * tr) (ndx % (arr.cols / tc) * tc) tr tc

/-- Flat-index form of the tile list produced by `make_tiles` for a strictly
positive tile shape; `make_tiles_pos_eq` proves the two agree. -/
def mtTiles (arr : Arr3) (tr tc pad : ℕ) : List Arr3 :=
  (List.range (arr.rows / tr * (arr.cols / tc))).map
    (fun ndx => if pad = 0 then mtBase arr tr tc ndx else padReflect (mtBase arr tr tc ndx) pad)

theorem make_tiles_pos_eq (arr : Arr3) (tr tc pad : ℕ) (htr : 0 < tr) (htc : 0 < tc) :
    make_tiles arr (tr : ℤ) (tc : ℤ) pad =
      .ok (mtTiles arr tr tc pad, ((arr.cols / tc : ℕ) : ℤ), ((arr.rows / tr : ℕ) : ℤ)) := by
  have hcond : ¬ ((tr : ℤ) = 0 ∨ (tc : ℤ) = 0) := by
    omega
  have hnx : Int.tdiv (arr.cols : ℤ) (tc : ℤ) = ((arr.cols / tc : ℕ) : ℤ) :=
    (Int.ofNat_tdiv _ _).symm
  have hny : Int.tdiv (arr.rows : ℤ) (tr : ℤ) = ((arr.rows / tr : ℕ) : ℤ) :=
    (Int.ofNat_tdiv _ _).symm
  have hrc : ((tr : ℤ) * ((arr.rows / tr : ℕ) : ℤ)).toNat = tr * (arr.rows / tr) := by
    rw [← Nat.cast_mul, Int.toNat_natCast]
  have hcc : ((tc : ℤ) * ((arr.cols / tc : ℕ) : ℤ)).toNat = tc * (arr.cols / tc) := by
    rw [← Nat.cast_mul, Int.toNat_natCast]
  have hminr : min (tr * (arr.rows / tr)) arr.rows = tr * (arr.rows / tr) :=
    Nat.min_eq_left (by rw [Nat.mul_comm]; exact Nat.div_mul_le_self _ _)
  have hminc : min (tc * (arr.cols / tc)) arr.cols = tc * (arr.cols / tc) :=
    Nat.min_eq_left (by rw [Nat.mul_comm]; exact Nat.div_mul_le_self _ _)
  have htrn : ((tr : ℤ)).toNat = tr := Int.toNat_natCast tr
  have htcn : ((tc : ℤ)).toNat = tc := Int.toNat_natCast tc
  simp only [make_tiles, if_neg hcond, hnx, hny, hrc, hcc, hminr, hminc, htrn, htcn,
    pyRange_mul _ _ htr, pyRange_mul _ _ htc, List.flatMap_map, List.map_map,
    Function.comp_def]
  have hbase :
      (List.range (arr.rows / tr)).flatMap
        (fun a => (List.range (arr.cols / tc)).map
          (fun b => sliceTile arr (tr * (arr.rows / tr)) (tc * (arr.cols / tc))
            (a * tr) (b * tc) tr tc)) =
      (List.range (arr.rows / tr * (arr.cols / tc))).map (mtBase arr tr tc) := by
    rw [range_flatMap_map]
    rfl
  rw [hbase]
  by_cases hp : pad = 0
  · simp [mtTiles, hp]
  · simp [mtTiles, hp, List.map_map]

theorem mtTiles_length (arr : Arr3) (tr tc pad : ℕ) :
    (mtTiles arr tr tc pad).length = arr.rows / tr * (arr.cols / tc) := by
  simp [mtTiles]

theorem mtBase_rows (arr : Arr3) (tr tc ndx : ℕ)
    (h : ndx < arr.rows / tr * (arr.cols / tc)) :
    (mtBase arr tr tc ndx).rows = tr := by
  have hgx : 0 < arr.cols / tc := by
    rcases Nat.eq_zero_or_pos (arr.cols / tc) with h0 | h0
    · rw [h0] at h
      omega
    · exact h0
  have hband : ndx / (arr.cols / tc) < arr.rows / tr :=
    (Nat.div_lt_iff_lt_mul hgx).mpr h
  have hx : ndx / (arr.cols / tc) * tr + tr ≤ tr * (arr.rows / tr) := by
    have h1 : (ndx / (arr.cols / tc) + 1) * tr ≤ arr.rows / tr * tr :=
      Nat.mul_le_mul_right tr hband
    calc ndx / (arr.cols / tc) * tr + tr = (ndx / (arr.cols / tc) + 1) * tr := by ring
    _ ≤ arr.rows / tr * tr := h1
    _ = tr * (arr.rows / tr) := Nat.mul_comm _ _
  show min (ndx / (arr.cols / tc) * tr + tr) (tr * (arr.rows / tr)) -
      ndx / (arr.cols / tc) * tr = tr
  rw [Nat.min_eq_left hx]
  omega

theorem mtBase_cols (arr : Arr3) (tr tc ndx : ℕ)
    (h : ndx < arr.rows / tr * (arr.cols / tc)) :
    (mtBase arr tr tc ndx).cols = tc := by
  have hgx : 0 < arr.cols / tc := by
    rcases Nat.eq_zero_or_pos (arr.cols / tc) with h0 | h0
    · rw [h0] at h
      omega
    · exact h0
  have hband : ndx % (arr.cols / tc) < arr.cols / tc := Nat.mod_lt _ hgx
  have hy : ndx % (arr.cols / tc) * tc + tc ≤ tc * (arr.cols / tc) := by
    have h1 : (ndx % (arr.cols / tc) + 1) * tc ≤ arr.cols / tc * tc :=
      Nat.mul_le_mul_right tc hband
    calc ndx % (arr.cols / tc) * tc + tc = (ndx % (arr.cols / tc) + 1) * tc := by ring
    _ ≤ arr.cols / tc * tc := h1
    _ = tc * (arr.cols / tc) := Nat.mul_comm _ _
  show min (ndx % (arr.cols / tc) * tc + tc) (tc * (arr.cols / tc)) -
      ndx % (arr.cols / tc) * tc = tc
  rw [Nat.min_eq_left hy]
  omega

/-! ## Lemmas about the reflect index map -/

theorem reflIdx_lt (n p i : ℕ) (hn : 0 < n) : reflIdx n p i < n := by
  unfold reflIdx
  by_cases h1 : n ≤ 1
  · simp [h1]
    omega
  · simp only [if_neg h1]
    have hM : (0 : ℤ) < 2 * (n : ℤ) - 2 := by omega
    have hlo : 0 ≤ ((i : ℤ) - (p : ℤ)) % (2 * (n : ℤ) - 2) :=
      Int.emod_nonneg _ (by omega)
    have hhi : ((i : ℤ) - (p : ℤ)) % (2 * (n : ℤ) - 2) < 2 * (n : ℤ) - 2 :=
      Int.emod_lt_of_pos _ hM
    split <;> omega

theorem reflIdx_interior (n p i : ℕ) (h : i < n) : reflIdx n p (p + i) = i := by
  unfold reflIdx
  by_cases h1 : n ≤ 1
  · simp [h1]
    omega
  · simp only [if_neg h1]
    have ht : ((p + i : ℕ) : ℤ) - (p : ℤ) = (i : ℤ) := by
      push_cast
      ring
    rw [ht]
    have hm : (i : ℤ) % (2 * (n : ℤ) - 2) = (i : ℤ) :=
      Int.emod_eq_of_lt (by omega) (by omega)
    rw [hm]
    rw [if_pos (by omega : (i : ℤ) < (n : ℤ))]
    omega

theorem reflIdx_mirror_low (n p k : ℕ) (hk : k ≤ p) (hkn : k < n) :
    reflIdx n p (p - k) = reflIdx n p (p + k) := by
  unfold reflIdx
  by_cases h1 : n ≤ 1
  · simp [h1]
  · simp only [if_neg h1]
    rcases Nat.eq_zero_or_pos k with hk0 | hk0
    · subst hk0
      norm_num
    · have ht : ((p - k : ℕ) : ℤ) - (p : ℤ) = -(k : ℤ) := by
        have := Nat.cast_sub hk (R := ℤ)
        omega
      have ht2 : ((p + k : ℕ) : ℤ) - (p : ℤ) = (k : ℤ) := by
        push_cast
        ring
      rw [ht, ht2]
      have hmlow : (-(k : ℤ)) % (2 * (n : ℤ) - 2) = 2 * (n : ℤ) - 2 - k := by
        have h2 : (-(k : ℤ) + (2 * (n : ℤ) - 2) * 1) % (2 * (n : ℤ) - 2) =
            (-(k : ℤ)) % (2 * (n : ℤ) - 2) :=
          Int.add_mul_emod_self_left (-(k : ℤ)) (2 * (n : ℤ) - 2) 1
        rw [← h2]
        have h3 : -(k : ℤ) + (2 * (n : ℤ) - 2) * 1 = 2 * (n : ℤ) - 2 - k := by ring
        rw [h3]
        exact Int.emod_eq_of_lt (by omega) (by omega)
      have hmhigh : ((k : ℤ)) % (2 * (n : ℤ) - 2) = (k : ℤ) :=
        Int.emod_eq_of_lt (by omega) (by omega)
      rw [hmlow, hmhigh]
      split <;> split <;> omega

theorem reflIdx_mirror_high (n p k : ℕ) (hk : k ≤ n - 1) :
    reflIdx n p (p + (n - 1) + k) = reflIdx n p (p + (n - 1 - k)) := by
  by_cases h1 : n ≤ 1
  · unfold reflIdx
    simp [h1]
  · have hint : reflIdx n p (p + (n - 1 - k)) = n - 1 - k :=
      reflIdx_interior n p (n - 1 - k) (by omega)
    rw [hint]
    unfold reflIdx
    simp only [if_neg h1]
    have ht : ((p + (n - 1) + k : ℕ) : ℤ) - (p : ℤ) = (n : ℤ) - 1 + k := by
      have h2 : ((n - 1 : ℕ) : ℤ) = (n : ℤ) - 1 := by omega
      push_cast [h2]
      ring
    rw [ht]
    by_cases hfull : k = n - 1
    · have hself : ((n : ℤ) - 1 + k) % (2 * (n : ℤ) - 2) = 0 := by
        have h2 : (n : ℤ) - 1 + k = 2 * (n : ℤ) - 2 := by omega
        rw [h2]
        exact Int.emod_self
      rw [hself]
      rw [if_pos (by omega : (0 : ℤ) < (n : ℤ))]
      omega
    · have hm : ((n : ℤ) - 1 + k) % (2 * (n : ℤ) - 2) = (n : ℤ) - 1 + k :=
        Int.emod_eq_of_lt (by omega) (by omega)
      rw [hm]
      split <;> omega

/-! ## Lemmas about the stitch loop -/

theorem tileSlice_rows (ta : Arr4) (ndx crop : ℕ) :
    (tileSlice ta ndx crop).rows = ta.rows - 2 * crop := by
  by_cases h : crop = 0 <;> simp [tileSlice, h]

theorem tileSlice_cols (ta : Arr4) (ndx crop : ℕ) :
    (tileSlice ta ndx crop).cols = ta.cols - 2 * crop := by
  by_cases h : crop = 0 <;> simp [tileSlice, h]

theorem tileSlice_chans (ta : Arr4) (ndx crop : ℕ) :
    (tileSlice ta ndx crop).chans = ta.chans := by
  by_cases h : crop = 0 <;> simp [tileSlice, h]

theorem tileSlice_data (ta : Arr4) (ndx crop i j k : ℕ) :
    (tileSlice ta ndx crop).data i j k = ta.data ndx (crop + i) (crop + j) k := by
  by_cases h : crop = 0 <;> simp [tileSlice, h]

theorem bIdx_in_range (s i : ℕ) (h : i < s) : bIdx s i = i := by
  unfold bIdx
  split <;> omega

/-- The block of the output covered by the tile at flat index `ndx`. -/
def covers (nx trpt tcpt ndx r c : ℕ) : Prop :=
  ndx / nx * trpt ≤ r ∧ r < ndx / nx * trpt + trpt ∧
    ndx % nx * tcpt ≤ c ∧ c < ndx % nx * tcpt + tcpt

theorem covers_unique (nx ny trpt tcpt r c ndx ndx2 : ℕ)
    (hn1 : ndx < ny * nx) (hn2 : ndx2 < ny * nx)
    (h1 : covers nx trpt tcpt ndx r c) (h2 : covers nx trpt tcpt ndx2 r c) :
    ndx = ndx2 := by
  have hnx : 0 < nx := by
    rcases Nat.eq_zero_or_pos nx with h0 | h0
    · rw [h0, Nat.mul_zero] at hn1
      omega
    · exact h0
  have hband : ∀ a b T x : ℕ, a * T ≤ x → x < a * T + T → b * T ≤ x → x < b * T + T →
      a = b := by
    intro a b T x ha1 ha2 hb1 hb2
    rcases Nat.lt_trichotomy a b with h | h | h
    · exfalso
      have : (a + 1) * T ≤ b * T := Nat.mul_le_mul_right T h
      have : a * T + T ≤ b * T := by
        calc a * T + T = (a + 1) * T := by ring
        _ ≤ b * T := this
      omega
    · exact h
    · exfalso
      have : (b + 1) * T ≤ a * T := Nat.mul_le_mul_right T h
      have : b * T + T ≤ a * T := by
        calc b * T + T = (b + 1) * T := by ring
        _ ≤ a * T := this
      omega
  obtain ⟨c11, c12, c13, c14⟩ := h1
  obtain ⟨c21, c22, c23, c24⟩ := h2
  have hdiv : ndx / nx = ndx2 / nx := hband _ _ _ _ c11 c12 c21 c22
  have hmod : ndx % nx = ndx2 % nx := hband _ _ _ _ c13 c14 c23 c24
  have e1 : nx * (ndx / nx) + ndx % nx = ndx := Nat.div_add_mod ndx nx
  have e2 : nx * (ndx2 / nx) + ndx2 % nx = ndx2 := Nat.div_add_mod ndx2 nx
  rw [hdiv, hmod] at e1
  omega

theorem placeTile_data_covered (acc : Arr3) (i0 j0 trpt tcpt : ℕ) (tile : Arr3)
    (r c k : ℕ) (h : i0 ≤ r ∧ r < i0 + trpt ∧ j0 ≤ c ∧ c < j0 + tcpt) :
    (placeTile acc i0 j0 trpt tcpt tile).data r c k =
      tile.data (bIdx tile.rows (r - i0)) (bIdx tile.cols (c - j0)) (bIdx tile.chans k) := by
  simp [placeTile, h]

theorem placeTile_data_missed (acc : Arr3) (i0 j0 trpt tcpt : ℕ) (tile : Arr3)
    (r c k : ℕ) (h : ¬ (i0 ≤ r ∧ r < i0 + trpt ∧ j0 ≤ c ∧ c < j0 + tcpt)) :
    (placeTile acc i0 j0 trpt tcpt tile).data r c k = acc.data r c k := by
  simp only [placeTile]
  rw [if_neg h]

theorem stitchStep_ok_val (ta : Arr4) (nx ny trpt tcpt crop : ℕ) (acc : Arr3) (ndx : ℕ)
    (h1 : ndx < ny * nx)
    (h2 : bcOk (ta.rows - 2 * crop) (ta.cols - 2 * crop) ta.chans trpt tcpt ta.chans = true) :
    stitchStep ta nx ny trpt tcpt crop acc ndx =
      .ok (placeTile acc (ndx / nx * trpt) (ndx % nx * tcpt) trpt tcpt
        (tileSlice ta ndx crop)) := by
  simp only [stitchStep, tileSlice_rows, tileSlice_cols, tileSlice_chans]
  rw [if_neg (by omega), if_pos h2]

theorem stitchStep_ok_inv (ta : Arr4) (nx ny trpt tcpt crop : ℕ) (acc acc2 : Arr3)
    (ndx : ℕ) (h : stitchStep ta nx ny trpt tcpt crop acc ndx = .ok acc2) :
    ndx < ny * nx ∧
      bcOk (ta.rows - 2 * crop) (ta.cols - 2 * crop) ta.chans trpt tcpt ta.chans = true ∧
      acc2 = placeTile acc (ndx / nx * trpt) (ndx % nx * tcpt) trpt tcpt
        (tileSlice ta ndx crop) := by
  simp only [stitchStep, tileSlice_rows, tileSlice_cols, tileSlice_chans] at h
  by_cases hc1 : ny * nx ≤ ndx
  · rw [if_pos hc1] at h
    exact absurd h (by simp)
  · rw [if_neg hc1] at h
    by_cases hc2 :
        bcOk (ta.rows - 2 * crop) (ta.cols - 2 * crop) ta.chans trpt tcpt ta.chans = true
    · rw [if_pos hc2] at h
      refine ⟨by omega, hc2, ?_⟩
      exact (Except.ok.injEq _ _).mp h |>.symm
    · rw [if_neg hc2] at h
      exact absurd h (by simp)

theorem stitchLoop_cons_ok (ta : Arr4) (nx ny trpt tcpt crop : ℕ) (acc out : Arr3)
    (x : ℕ) (l : List ℕ)
    (h : stitchLoop ta nx ny trpt tcpt crop acc (x :: l) = .ok out) :
    ∃ acc2, stitchStep ta nx ny trpt tcpt crop acc x = .ok acc2 ∧
      stitchLoop ta nx ny trpt tcpt crop acc2 l = .ok out := by
  cases hstep : stitchStep ta nx ny trpt tcpt crop acc x with
  | error e =>
    rw [stitchLoop, hstep] at h
    exact absurd h (by simp)
  | ok acc2 =>
    rw [stitchLoop, hstep] at h
    exact ⟨acc2, rfl, h⟩

theorem stitchLoop_ok_iff (ta : Arr4) (nx ny trpt tcpt crop : ℕ) (l : List ℕ) :
    ∀ acc, (∃ out, stitchLoop ta nx ny trpt tcpt crop acc l = .ok out) ↔
      (∀ ndx ∈ l, ndx < ny * nx ∧
        bcOk (ta.rows - 2 * crop) (ta.cols - 2 * crop) ta.chans trpt tcpt ta.chans = true) := by
  induction l with
  | nil =>
    intro acc
    simp [stitchLoop]
  | cons x l ih =>
    intro acc
    constructor
    · rintro ⟨out, hout⟩
      obtain ⟨acc2, hstep, hrest⟩ := stitchLoop_cons_ok _ _ _ _ _ _ _ _ _ _ hout
      obtain ⟨hx1, hx2, _⟩ := stitchStep_ok_inv _ _ _ _ _ _ _ _ _ hstep
      intro ndx hndx
      rcases List.mem_cons.mp hndx with h | h
      · subst h
        exact ⟨hx1, hx2⟩
      · exact (ih acc2).mp ⟨out, hrest⟩ ndx h
    · intro hall
      obtain ⟨hx1, hx2⟩ := hall x (List.mem_cons_self x l)
      rw [stitchLoop, stitchStep_ok_val _ _ _ _ _ _ _ _ hx1 hx2]
      exact (ih _).mpr (fun ndx hndx => hall ndx (List.mem_cons_of_mem _ hndx))

theorem stitchLoop_shape (ta : Arr4) (nx ny trpt tcpt crop : ℕ) (l : List ℕ) :
    ∀ acc out, stitchLoop ta nx ny trpt tcpt crop acc l = .ok out →
      out.rows = acc.rows ∧ out.cols = acc.cols ∧ out.chans = acc.chans ∧
        out.dtype = acc.dtype := by
  induction l with
  | nil =>
    intro acc out h
    rw [stitchLoop] at h
    obtain rfl := (Except.ok.injEq _ _).mp h
    exact ⟨rfl, rfl, rfl, rfl⟩
  | cons x l ih =>
    intro acc out h
    obtain ⟨acc2, hstep, hrest⟩ := stitchLoop_cons_ok _ _ _ _ _ _ _ _ _ _ h
    obtain ⟨_, _, rfl⟩ := stitchStep_ok_inv _ _ _ _ _ _ _ _ _ hstep
    have hh := ih _ _ hrest
    simpa [placeTile] using hh

theorem stitchLoop_data_untouched (ta : Arr4) (nx ny trpt tcpt crop r c k : ℕ)
    (l : List ℕ) :
    ∀ acc out, (∀ ndx ∈ l, ¬ covers nx trpt tcpt ndx r c) →
      stitchLoop ta nx ny trpt tcpt crop acc l = .ok out →
      out.data r c k = acc.data r c k := by
  induction l with
  | nil =>
    intro acc out _ h
    rw [stitchLoop] at h
    obtain rfl := (Except.ok.injEq _ _).mp h
    rfl
  | cons x l ih =>
    intro acc out hnc h
    obtain ⟨acc2, hstep, hrest⟩ := stitchLoop_cons_ok _ _ _ _ _ _ _ _ _ _ h
    obtain ⟨_, _, rfl⟩ := stitchStep_ok_inv _ _ _ _ _ _ _ _ _ hstep
    have hval := ih _ _ (fun ndx hndx => hnc ndx (List.mem_cons_of_mem _ hndx)) hrest
    rw [hval, placeTile_data_missed]
    exact hnc x (List.mem_cons_self x l)

theorem stitchLoop_data_write (ta : Arr4) (nx ny trpt tcpt crop r c k ndx0 : ℕ)
    (l : List ℕ) :
    ∀ acc out, l.Nodup → ndx0 ∈ l → covers nx trpt tcpt ndx0 r c →
      (∀ ndx ∈ l, covers nx trpt tcpt ndx r c → ndx = ndx0) →
      stitchLoop ta nx ny trpt tcpt crop acc l = .ok out →
      out.data r c k = (tileSlice ta ndx0 crop).data
        (bIdx (ta.rows - 2 * crop) (r - ndx0 / nx * trpt))
        (bIdx (ta.cols - 2 * crop) (c - ndx0 % nx * tcpt))
        (bIdx ta.chans k) := by
  induction l with
  | nil =>
    intro acc out _ hmem
    exact absurd hmem (by simp)
  | cons x l ih =>
    intro acc out hnd hmem hcov huniq h
    obtain ⟨acc2, hstep, hrest⟩ := stitchLoop_cons_ok _ _ _ _ _ _ _ _ _ _ h
    obtain ⟨_, _, rfl⟩ := stitchStep_ok_inv _ _ _ _ _ _ _ _ _ hstep
    by_cases hx : x = ndx0
    · subst hx
      have hnotin : x ∉ l := (List.nodup_cons.mp hnd).1
      have hnc : ∀ ndx ∈ l, ¬ covers nx trpt tcpt ndx r c := by
        intro ndx hndx hc
        exact hnotin ((huniq ndx (List.mem_cons_of_mem _ hndx) hc) ▸ hndx)
      have hval := stitchLoop_data_untouched ta nx ny trpt tcpt crop r c k l _ _ hnc hrest
      rw [hval, placeTile_data_covered _ _ _ _ _ _ _ _ _ hcov]
      rw [tileSlice_rows, tileSlice_cols, tileSlice_chans]
    · have hmem2 : ndx0 ∈ l := by
        rcases List.mem_cons.mp hmem with h | h
        · exact absurd h.symm hx
        · exact h
      exact ih _ _ (List.nodup_cons.mp hnd).2 hmem2 hcov
        (fun ndx hndx hc => huniq ndx (List.mem_cons_of_mem _ hndx) hc) hrest

/-! ## Claim theorems -/

/-- C8: `resize` fails (`InvalidDimension` in the spec taxonomy: the
`ZeroDivisionError` of `width / arr.shape[1]` when the image width is zero,
or the `cv2.resize` rejection of a nonpositive target size) whenever
`target_width <= 0` or the input width is zero, and then returns no array. -/
theorem C8_resize_error (interp : ℕ → ℕ → ℕ → ℤ) (arr : Arr3) (w : ℤ)
    (h : w ≤ 0 ∨ arr.cols = 0) :
    ∃ e, resize interp arr w = .error e := by
  simp only [resize]
  by_cases hc : arr.cols = 0
  · rw [if_pos hc]
    exact ⟨_, rfl⟩
  · rcases h with hw | hc2
    · rw [if_neg hc, if_pos (Or.inl hw)]
      exact ⟨_, rfl⟩
    · exact absurd hc2 hc

theorem C8_resize_error_witness :
    ∃ e, resize (fun _ _ _ => 0) ⟨10, 10, 3, DType.uint8, fun _ _ _ => 0⟩ 0 = .error e :=
  C8_resize_error (fun _ _ _ => 0) ⟨10, 10, 3, DType.uint8, fun _ _ _ => 0⟩ 0
    (Or.inl (by norm_num))

/-- C9: every array returned by `stitch_tiles` carries the numpy default
float64 dtype of its `np.zeros` buffer, whatever the dtype of the tile
array, and has the declared assembled shape (its samples are the placed
tile samples, stored exactly into that buffer — see the placement theorem
for C2). -/
theorem C9_stitch_dtype (ta : Arr4) (nx ny tcpt trpt crop : ℕ) (out : Arr3)
    (h : stitch_tiles ta nx ny tcpt trpt crop = .ok out) :
    out.dtype = DType.float64 ∧ out.rows = trpt * ny ∧ out.cols = tcpt * nx ∧
      out.chans = ta.chans := by
  unfold stitch_tiles at h
  obtain ⟨h1, h2, h3, h4⟩ := stitchLoop_shape ta nx ny trpt tcpt crop (List.range ta.n) _ out h
  exact ⟨h4, h1, h2, h3⟩

theorem C9_stitch_dtype_witness :
    ∃ out, stitch_tiles ⟨1, 1, 1, 2, DType.uint8, fun _ _ _ _ => 5⟩ 1 1 1 1 0 = .ok out ∧
      out.dtype = DType.float64 :=
  ⟨_, rfl, (C9_stitch_dtype ⟨1, 1, 1, 2, DType.uint8, fun _ _ _ _ => 5⟩ 1 1 1 1 0 _ rfl).1⟩

/-- C5 counterexample: a tile array with fewer tiles than the declared grid
(one tile on a 2-by-1 grid) stitches without any error, leaving the
uncovered block zero — so a tile count different from
`grid_cols * grid_rows` does not imply failure as the claim states. -/
theorem C5_counterexample :
    (∃ out, stitch_tiles ⟨1, 2, 2, 1, DType.uint8, fun _ i j _ => (10 * i + j : ℤ)⟩
        2 1 2 2 0 = .ok out) ∧
      (⟨1, 2, 2, 1, DType.uint8, fun _ i j _ => (10 * i + j : ℤ)⟩ : Arr4).n ≠ 2 * 1 :=
  ⟨⟨_, rfl⟩, by decide⟩

/-- C5 amended: `stitch_tiles` succeeds exactly when the tile array is empty
or the tile count is at most `grid_rows * grid_cols` and the common
post-crop tile shape broadcasts onto `(tile_rows, tile_cols, C)`.  So it
fails when there are more tiles than grid cells (the unravel of the excess
index) or when the post-crop shape is broadcast-incompatible; with fewer
tiles it succeeds and leaves the remaining blocks zero, and exact post-crop
shape `(tile_rows, tile_cols, C)` always broadcasts, whatever the relation
of crop to the pad used at partition time. -/
theorem C5_stitch_error_amended (ta : Arr4) (nx ny tcpt trpt crop : ℕ) :
    (∃ out, stitch_tiles ta nx ny tcpt trpt crop = .ok out) ↔
      (ta.n = 0 ∨ (ta.n ≤ ny * nx ∧
        bcOk (ta.rows - 2 * crop) (ta.cols - 2 * crop) ta.chans trpt tcpt ta.chans = true)) := by
  unfold stitch_tiles
  rw [stitchLoop_ok_iff]
  constructor
  · intro hall
    rcases Nat.eq_zero_or_pos ta.n with h0 | h0
    · exact Or.inl h0
    · refine Or.inr ⟨?_, (hall 0 (List.mem_range.mpr h0)).2⟩
      have := (hall (ta.n - 1) (List.mem_range.mpr (by omega))).1
      omega
  · intro h ndx hndx
    have hlt := List.mem_range.mp hndx
    rcases h with h0 | ⟨hle, hbc⟩
    · omega
    · exact ⟨by omega, hbc⟩

theorem C5_stitch_error_amended_witness :
    ∃ out, stitch_tiles ⟨0, 4, 4, 1, DType.uint8, fun _ _ _ _ => 0⟩ 3 3 2 2 0 = .ok out :=
  (C5_stitch_error_amended ⟨0, 4, 4, 1, DType.uint8, fun _ _ _ _ => 0⟩ 3 3 2 2 0).mpr
    (Or.inl rfl)

theorem flatMap_nil_fun {α β : Type} (l : List α) :
    (l.flatMap fun _ => ([] : List β)) = [] := by
  induction l with
  | nil => rfl
  | cons a l ih => simp [List.flatMap_cons, ih]

/-- C6 counterexample: with a negative tile dimension `make_tiles` returns an
empty tile array (the slicing loop ranges are empty) instead of failing,
and with a source smaller than one tile it likewise returns an empty tile
array instead of failing — both against the claimed `InvalidDimension` and
`EmptyResult` errors. -/
theorem C6_counterexample :
    make_tiles ⟨10, 8, 1, DType.uint8, fun _ _ _ => 0⟩ (-5) 4 0 = .ok ([], 2, -2) ∧
      make_tiles ⟨3, 3, 1, DType.uint8, fun _ _ _ => 0⟩ 5 5 0 = .ok ([], 0, 0) :=
  ⟨rfl, rfl⟩

/-- C6 amended: `make_tiles` raises only when a tile dimension is exactly
zero (the `ZeroDivisionError` of the grid division); a negative tile
dimension or an empty grid produces no error and yields an empty tile
array, with whatever grid counts the truncating divisions gave. -/
theorem C6_make_tiles_error_amended (arr : Arr3) (tr tc : ℤ) (pad : ℕ) :
    ((∃ e, make_tiles arr tr tc pad = .error e) ↔ (tr = 0 ∨ tc = 0)) ∧
      (∀ ts nx ny, make_tiles arr tr tc pad = .ok (ts, nx, ny) →
        (tr < 0 ∨ tc < 0 ∨ nx = 0 ∨ ny = 0) → ts = []) := by
  constructor
  · constructor
    · rintro ⟨e, he⟩
      by_contra hcon
      rw [make_tiles, if_neg hcon] at he
      exact absurd he (by simp)
    · intro h
      rw [make_tiles, if_pos h]
      exact ⟨_, rfl⟩
  · intro ts nx ny hok hneg
    by_cases h0 : tr = 0 ∨ tc = 0
    · rw [make_tiles, if_pos h0] at hok
      exact absurd hok (by simp)
    · rw [make_tiles, if_neg h0] at hok
      simp only [Except.ok.injEq, Prod.mk.injEq] at hok
      obtain ⟨hts, hnx, hny⟩ := hok
      subst hts hnx hny
      have hbase_nil :
          (pyRange (min (tr * Int.tdiv (arr.rows : ℤ) tr).toNat arr.rows) tr).flatMap
            (fun x =>
              (pyRange (min (tc * Int.tdiv (arr.cols : ℤ) tc).toNat arr.cols) tc).map
                (fun y => sliceTile arr
                  (min (tr * Int.tdiv (arr.rows : ℤ) tr).toNat arr.rows)
                  (min (tc * Int.tdiv (arr.cols : ℤ) tc).toNat arr.cols)
                  x y tr.toNat tc.toNat)) = [] := by
        rcases hneg with h | h | h | h
        · rw [pyRange_nonpos _ _ (by omega)]
          rfl
        · have hys : pyRange (min (tc * Int.tdiv (arr.cols : ℤ) tc).toNat arr.cols) tc = [] :=
            pyRange_nonpos _ _ (by omega)
          simp only [hys, List.map_nil]
          exact flatMap_nil_fun _
        · rcases lt_trichotomy tc 0 with hlt | he0 | hgt
          · have hys : pyRange (min (tc * Int.tdiv (arr.cols : ℤ) tc).toNat arr.cols) tc
                = [] := pyRange_nonpos _ _ (by omega)
            simp only [hys, List.map_nil]
            exact flatMap_nil_fun _
          · exact absurd he0 (by omega)
          · simp only [h, mul_zero, Int.toNat_zero, Nat.zero_min, pyRange_zero,
              List.map_nil]
            exact flatMap_nil_fun _
        · rcases lt_trichotomy tr 0 with hlt | he0 | hgt
          · rw [pyRange_nonpos _ _ (by omega)]
            rfl
          · exact absurd he0 (by omega)
          · simp only [h, mul_zero, Int.toNat_zero, Nat.zero_min, pyRange_zero]
            rfl
      rw [hbase_nil]
      by_cases hp : pad = 0 <;> simp [hp]

theorem C6_make_tiles_error_amended_witness :
    ∃ e, make_tiles ⟨4, 4, 1, DType.uint8, fun _ _ _ => 0⟩ 0 4 0 = .error e :=
  (C6_make_tiles_error_amended ⟨4, 4, 1, DType.uint8, fun _ _ _ => 0⟩ 0 4 0).1.mpr
    (Or.inl rfl)

/-- C7 counterexample: on a 27-by-3 image resized to width 13, the binary64
evaluation of `int(27 * (13 / 3))` yields height 116, while the exact
mathematical floor of `27 * 13 / 3` is 117 — the claimed exact-floor height
fails at this input. -/
theorem C7_counterexample :
    (∃ out, resize (fun _ _ _ => 0) ⟨27, 3, 1, DType.uint8, fun _ _ _ => 0⟩ 13 = .ok out ∧
      out.rows = 116) ∧ 27 * 13 / 3 = 117 :=
  ⟨⟨_, rfl, rfl⟩, by norm_num⟩

/-- C7 amended: `resize` returns a new array of shape
`(int(H * float(w / W)), w, C)` computed in binary64; whenever both float
roundings are exact the height equals the exact rational floor
`H * w / W`, but in general it can fall short of it (116 against 117 at
`H = 27, W = 3, w = 13`). -/
theorem C7_resize_height_amended (interp : ℕ → ℕ → ℕ → ℤ) (arr : Arr3) (w : ℤ)
    (hw : 0 < w) (hc : 0 < arr.cols)
    (hx1 : dyadicEq (roundQ w.toNat arr.cols).1 (roundQ w.toNat arr.cols).2
      w.toNat arr.cols)
    (hx2 : dyadicEq (flMulNat arr.rows (roundQ w.toNat arr.cols)).1
      (flMulNat arr.rows (roundQ w.toNat arr.cols)).2 (arr.rows * w.toNat) arr.cols)
    (hge : arr.cols ≤ arr.rows * w.toNat) :
    ∃ out, resize interp arr w = .ok out ∧
      out.rows = arr.rows * w.toNat / arr.cols ∧ out.cols = w.toNat ∧
      out.chans = arr.chans ∧ out.dtype = arr.dtype := by
  have hkey : floatHeightPos arr.rows arr.cols w.toNat = arr.rows * w.toNat / arr.cols := by
    unfold floatHeightPos truncDyadic
    unfold dyadicEq at hx2
    by_cases he : 0 ≤ (flMulNat arr.rows (roundQ w.toNat arr.cols)).2
    · rw [if_pos he] at hx2
      rw [if_pos he, ← hx2, Nat.mul_div_cancel _ hc]
    · rw [if_neg he] at hx2
      rw [if_neg he]
      have h2p : 0 < 2 ^ (-(flMulNat arr.rows (roundQ w.toNat arr.cols)).2).toNat :=
        Nat.pos_pow_of_pos _ (by norm_num)
      calc (flMulNat arr.rows (roundQ w.toNat arr.cols)).1 /
            2 ^ (-(flMulNat arr.rows (roundQ w.toNat arr.cols)).2).toNat
          = (flMulNat arr.rows (roundQ w.toNat arr.cols)).1 * arr.cols /
            (2 ^ (-(flMulNat arr.rows (roundQ w.toNat arr.cols)).2).toNat * arr.cols) := by
            rw [Nat.mul_div_mul_right _ _ hc]
        _ = arr.rows * w.toNat *
            2 ^ (-(flMulNat arr.rows (roundQ w.toNat arr.cols)).2).toNat /
            (2 ^ (-(flMulNat arr.rows (roundQ w.toNat arr.cols)).2).toNat * arr.cols) := by
            rw [hx2]
        _ = arr.rows * w.toNat / arr.cols := by
            rw [Nat.mul_comm (2 ^ (-(flMulNat arr.rows (roundQ w.toNat arr.cols)).2).toNat)
              arr.cols, Nat.mul_div_mul_right _ _ h2p]
  have hhpos : 0 < arr.rows * w.toNat / arr.cols :=
    Nat.div_pos hge hc
  have hh : floatHeight arr.rows arr.cols w = ((arr.rows * w.toNat / arr.cols : ℕ) : ℤ) := by
    unfold floatHeight
    rw [if_neg (by omega), hkey]
  simp only [resize, hh]
  rw [if_neg (by omega), if_neg (by push_neg; constructor <;> omega)]
  refine ⟨_, rfl, ?_, ?_, rfl, rfl⟩
  · exact Int.toNat_natCast _
  · rfl

theorem C7_resize_height_amended_witness :
    ∃ out, resize (fun _ _ _ => 0) ⟨100, 4, 3, DType.uint8, fun _ _ _ => 0⟩ 2 = .ok out ∧
      out.rows = 100 * (2 : ℤ).toNat / 4 ∧ out.cols = (2 : ℤ).toNat ∧
      out.chans = 3 ∧ out.dtype = DType.uint8 :=
  C7_resize_height_amended (fun _ _ _ => 0) ⟨100, 4, 3, DType.uint8, fun _ _ _ => 0⟩ 2
    (by norm_num) (by norm_num) (by decide) (by decide) (by decide)

/-- C10 counterexample: a 2-by-2 rank-2 input with `pad = 1` and a 5-by-5
tile shape produces an empty grid, so the pad loop never runs and
`make_tiles` returns an empty result without any error — a 2D input with
positive pad does not always fail as the claim states. -/
theorem C10_counterexample :
    make_tiles_shape [2, 2] 5 5 1 = .ok ([], 0, 0) :=
  rfl

/-- C10 amended: with `pad > 0`, `make_tiles` fails on a rank-2
`(rows, cols)` input whenever at least one tile is produced, because the
3-axis pad width of numpy pad does not match rank 2 (with an empty grid the
pad loop never runs and an empty result is returned instead); and
`stitch_tiles` fails on any tile array of rank at most 3, because its first
statement reads the channel count from the fourth axis. -/
theorem C10_rank_guard_amended (r c tr tc pad : ℕ)
    (htr : 0 < tr) (htc : 0 < tc) (hp : 0 < pad) (hr : tr ≤ r) (hc : tc ≤ c) :
    (∃ e, make_tiles_shape [r, c] (tr : ℤ) (tc : ℤ) pad = .error e) ∧
      (∀ shape : List ℕ, shape.length ≤ 3 → stitch_tiles_shape shape = .error Err.indexError) := by
  constructor
  · have hcond : ¬ ((tr : ℤ) = 0 ∨ (tc : ℤ) = 0) := by omega
    have hgy : 0 < r / tr := Nat.div_pos hr htr
    have hgx : 0 < c / tc := Nat.div_pos hc htc
    have hnx : Int.tdiv (c : ℤ) (tc : ℤ) = ((c / tc : ℕ) : ℤ) := (Int.ofNat_tdiv _ _).symm
    have hny : Int.tdiv (r : ℤ) (tr : ℤ) = ((r / tr : ℕ) : ℤ) := (Int.ofNat_tdiv _ _).symm
    have hrc : ((tr : ℤ) * ((r / tr : ℕ) : ℤ)).toNat = tr * (r / tr) := by
      rw [← Nat.cast_mul, Int.toNat_natCast]
    have hcc : ((tc : ℤ) * ((c / tc : ℕ) : ℤ)).toNat = tc * (c / tc) := by
      rw [← Nat.cast_mul, Int.toNat_natCast]
    have hminr : min (tr * (r / tr)) r = tr * (r / tr) :=
      Nat.min_eq_left (by rw [Nat.mul_comm]; exact Nat.div_mul_le_self _ _)
    have hminc : min (tc * (c / tc)) c = tc * (c / tc) :=
      Nat.min_eq_left (by rw [Nat.mul_comm]; exact Nat.div_mul_le_self _ _)
    simp only [make_tiles_shape, List.getElem?_cons_zero, List.getElem?_cons_succ,
      if_neg hcond, if_neg (by omega : ¬ pad = 0), bind, Except.bind]
    simp only [hnx, hny, hrc, hcc, hminr, hminc, Int.toNat_natCast,
      pyRange_mul _ _ htr, pyRange_mul _ _ htc, List.flatMap_map, List.map_map,
      Function.comp_def]
    rw [range_flatMap_map]
    have hN : 0 < r / tr * (c / tc) := Nat.mul_pos hgy hgx
    obtain ⟨g, hg⟩ : ∃ g, r / tr * (c / tc) = g + 1 :=
      ⟨r / tr * (c / tc) - 1, by omega⟩
    rw [hg, List.range_succ_eq_map, List.map_cons, List.mapM_cons]
    simp only [npPad3Shape, Except.bind]
    exact ⟨_, rfl⟩
  · intro shape hlen
    unfold stitch_tiles_shape
    rw [List.getElem?_eq_none (by omega)]

theorem C10_rank_guard_amended_witness :
    ∃ e, make_tiles_shape [10, 10] (5 : ℤ) (5 : ℤ) 1 = .error e :=
  (C10_rank_guard_amended 10 10 5 5 1 (by norm_num) (by norm_num) (by norm_num)
    (by norm_num) (by norm_num)).1

theorem mtBase_x_bound (arr : Arr3) (tr tc ndx : ℕ)
    (h : ndx < arr.rows / tr * (arr.cols / tc)) :
    ndx / (arr.cols / tc) * tr + tr ≤ tr * (arr.rows / tr) := by
  have hgx : 0 < arr.cols / tc := by
    rcases Nat.eq_zero_or_pos (arr.cols / tc) with h0 | h0
    · rw [h0] at h
      omega
    · exact h0
  have hband : ndx / (arr.cols / tc) < arr.rows / tr :=
    (Nat.div_lt_iff_lt_mul hgx).mpr h
  calc ndx / (arr.cols / tc) * tr + tr = (ndx / (arr.cols / tc) + 1) * tr := by ring
  _ ≤ arr.rows / tr * tr := Nat.mul_le_mul_right tr hband
  _ = tr * (arr.rows / tr) := Nat.mul_comm _ _

theorem mtBase_y_bound (arr : Arr3) (tr tc ndx : ℕ)
    (h : ndx < arr.rows / tr * (arr.cols / tc)) :
    ndx % (arr.cols / tc) * tc + tc ≤ tc * (arr.cols / tc) := by
  have hgx : 0 < arr.cols / tc := by
    rcases Nat.eq_zero_or_pos (arr.cols / tc) with h0 | h0
    · rw [h0] at h
      omega
    · exact h0
  have hband : ndx % (arr.cols / tc) < arr.cols / tc := Nat.mod_lt _ hgx
  calc ndx % (arr.cols / tc) * tc + tc = (ndx % (arr.cols / tc) + 1) * tc := by ring
  _ ≤ arr.cols / tc * tc := Nat.mul_le_mul_right tc hband
  _ = tc * (arr.cols / tc) := Nat.mul_comm _ _

/-- C3: for a strictly positive tile shape, `make_tiles` returns grid counts
`floor(W / tile_cols)` and `floor(H / tile_rows)`, a grid of exactly
`grid_cols * grid_rows` tiles each of shape
`(tile_rows + 2 pad, tile_cols + 2 pad, C)`, and every tile sample is drawn
from the origin crop of whole tiles — the `H mod tile_rows` bottom rows and
`W mod tile_cols` right columns appear in no tile. -/
theorem C3_grid_shape (arr : Arr3) (tr tc pad : ℕ) (htr : 0 < tr) (htc : 0 < tc) :
    ∃ ts, make_tiles arr (tr : ℤ) (tc : ℤ) pad =
        .ok (ts, ((arr.cols / tc : ℕ) : ℤ), ((arr.rows / tr : ℕ) : ℤ)) ∧
      ts.length = arr.cols / tc * (arr.rows / tr) ∧
      (∀ t ∈ ts, t.rows = tr + 2 * pad ∧ t.cols = tc + 2 * pad ∧ t.chans = arr.chans) ∧
      (∀ t ∈ ts, ∀ i j k, i < t.rows → j < t.cols →
        ∃ a b, a < tr * (arr.rows / tr) ∧ b < tc * (arr.cols / tc) ∧
          t.data i j k = arr.data a b k) := by
  refine ⟨mtTiles arr tr tc pad, make_tiles_pos_eq arr tr tc pad htr htc, ?_, ?_, ?_⟩
  · rw [mtTiles_length]
    ring
  · intro t ht
    obtain ⟨ndx, hndx, hteq⟩ := List.mem_map.mp ht
    have hlt := List.mem_range.mp hndx
    subst hteq
    by_cases hp : pad = 0
    · subst hp
      rw [if_pos rfl]
      exact ⟨by rw [mtBase_rows _ _ _ _ hlt]; omega, by rw [mtBase_cols _ _ _ _ hlt]; omega, rfl⟩
    · rw [if_neg hp]
      refine ⟨?_, ?_, rfl⟩
      · show (mtBase arr tr tc ndx).rows + 2 * pad = tr + 2 * pad
        rw [mtBase_rows _ _ _ _ hlt]
      · show (mtBase arr tr tc ndx).cols + 2 * pad = tc + 2 * pad
        rw [mtBase_cols _ _ _ _ hlt]
  · intro t ht i j k hi hj
    obtain ⟨ndx, hndx, hteq⟩ := List.mem_map.mp ht
    have hlt := List.mem_range.mp hndx
    subst hteq
    have hxb := mtBase_x_bound arr tr tc ndx hlt
    have hyb := mtBase_y_bound arr tr tc ndx hlt
    by_cases hp : pad = 0
    · rw [if_pos hp] at hi hj ⊢
      rw [mtBase_rows _ _ _ _ hlt] at hi
      rw [mtBase_cols _ _ _ _ hlt] at hj
      exact ⟨ndx / (arr.cols / tc) * tr + i, ndx % (arr.cols / tc) * tc + j,
        by omega, by omega, rfl⟩
    · rw [if_neg hp] at hi hj ⊢
      have hri : reflIdx (mtBase arr tr tc ndx).rows pad i < tr := by
        rw [mtBase_rows _ _ _ _ hlt]
        exact reflIdx_lt tr pad i htr
      have hrj : reflIdx (mtBase arr tr tc ndx).cols pad j < tc := by
        rw [mtBase_cols _ _ _ _ hlt]
        exact reflIdx_lt tc pad j htc
      exact ⟨ndx / (arr.cols / tc) * tr + reflIdx (mtBase arr tr tc ndx).rows pad i,
        ndx % (arr.cols / tc) * tc + reflIdx (mtBase arr tr tc ndx).cols pad j,
        by omega, by omega, rfl⟩

/-- Concrete 5-by-7 two-channel image used by the C3 witness. -/
def arrC3 : Arr3 :=
  ⟨5, 7, 2, DType.uint16, fun i j k => (100 * i + 10 * j + k : ℤ)⟩

theorem C3_grid_shape_witness :
    ∃ ts, make_tiles arrC3 (2 : ℤ) (3 : ℤ) 1 =
        .ok (ts, ((arrC3.cols / 3 : ℕ) : ℤ), ((arrC3.rows / 2 : ℕ) : ℤ)) ∧
      ts.length = arrC3.cols / 3 * (arrC3.rows / 2) ∧
      (∀ t ∈ ts, t.rows = 2 + 2 * 1 ∧ t.cols = 3 + 2 * 1 ∧ t.chans = arrC3.chans) ∧
      (∀ t ∈ ts, ∀ i j k, i < t.rows → j < t.cols →
        ∃ a b, a < 2 * (arrC3.rows / 2) ∧ b < 3 * (arrC3.cols / 3) ∧
          t.data i j k = arrC3.data a b k) :=
  C3_grid_shape arrC3 2 3 1 (by norm_num) (by norm_num)

/-- C4: with `0 < pad` at most each tile dimension minus one, every tile of
`make_tiles` is mirror-padded without repeating the border sample: at
distance `k` outside a border the sample equals the interior sample at
distance `k` inside that border (row `pad + k`, the interior sample `k`
rows in from the edge row `pad`, and so on for the other three borders),
and the channel axis is never padded. -/
theorem C4_reflect_pad (arr : Arr3) (tr tc pad : ℕ)
    (htr : 0 < tr) (htc : 0 < tc) (hp : 0 < pad) (hptr : pad < tr) (hptc : pad < tc) :
    ∃ ts, make_tiles arr (tr : ℤ) (tc : ℤ) pad =
        .ok (ts, ((arr.cols / tc : ℕ) : ℤ), ((arr.rows / tr : ℕ) : ℤ)) ∧
      ∀ t ∈ ts, t.chans = arr.chans ∧
        (∀ k, k ≤ pad → ∀ j c,
          t.data (pad - k) j c = t.data (pad + k) j c ∧
          t.data (pad + (tr - 1) + k) j c = t.data (pad + (tr - 1 - k)) j c) ∧
        (∀ k, k ≤ pad → ∀ i c,
          t.data i (pad - k) c = t.data i (pad + k) c ∧
          t.data i (pad + (tc - 1) + k) c = t.data i (pad + (tc - 1 - k)) c) := by
  refine ⟨mtTiles arr tr tc pad, make_tiles_pos_eq arr tr tc pad htr htc, ?_⟩
  intro t ht
  obtain ⟨ndx, hndx, hteq⟩ := List.mem_map.mp ht
  have hlt := List.mem_range.mp hndx
  have hne : ¬ pad = 0 := by omega
  rw [if_neg hne] at hteq
  subst hteq
  have hsr : (mtBase arr tr tc ndx).rows = tr := mtBase_rows _ _ _ _ hlt
  have hsc : (mtBase arr tr tc ndx).cols = tc := mtBase_cols _ _ _ _ hlt
  refine ⟨rfl, ?_, ?_⟩
  · intro k hk j c
    constructor
    · show (mtBase arr tr tc ndx).data
          (reflIdx (mtBase arr tr tc ndx).rows pad (pad - k))
          (reflIdx (mtBase arr tr tc ndx).cols pad j) c =
        (mtBase arr tr tc ndx).data
          (reflIdx (mtBase arr tr tc ndx).rows pad (pad + k))
          (reflIdx (mtBase arr tr tc ndx).cols pad j) c
      rw [hsr, reflIdx_mirror_low tr pad k hk (by omega)]
    · show (mtBase arr tr tc ndx).data
          (reflIdx (mtBase arr tr tc ndx).rows pad (pad + (tr - 1) + k))
          (reflIdx (mtBase arr tr tc ndx).cols pad j) c =
        (mtBase arr tr tc ndx).data
          (reflIdx (mtBase arr tr tc ndx).rows pad (pad + (tr - 1 - k)))
          (reflIdx (mtBase arr tr tc ndx).cols pad j) c
      rw [hsr, reflIdx_mirror_high tr pad k (by omega)]
  · intro k hk i c
    constructor
    · show (mtBase arr tr tc ndx).data
          (reflIdx (mtBase arr tr tc ndx).rows pad i)
          (reflIdx (mtBase arr tr tc ndx).cols pad (pad - k)) c =
        (mtBase arr tr tc ndx).data
          (reflIdx (mtBase arr tr tc ndx).rows pad i)
          (reflIdx (mtBase arr tr tc ndx).cols pad (pad + k)) c
      rw [hsc, reflIdx_mirror_low tc pad k hk (by omega)]
    · show (mtBase arr tr tc ndx).data
          (reflIdx (mtBase arr tr tc ndx).rows pad i)
          (reflIdx (mtBase arr tr tc ndx).cols pad (pad + (tc - 1) + k)) c =
        (mtBase arr tr tc ndx).data
          (reflIdx (mtBase arr tr tc ndx).rows pad i)
          (reflIdx (mtBase arr tr tc ndx).cols pad (pad + (tc - 1 - k))) c
      rw [hsc, reflIdx_mirror_high tc pad k (by omega)]

/-- Concrete 6-by-8 single-channel image used by the C4 witness. -/
def arrC4 : Arr3 :=
  ⟨6, 8, 1, DType.uint8, fun i j _ => (10 * i + j : ℤ)⟩

theorem C4_reflect_pad_witness :
    ∃ ts, make_tiles arrC4 (3 : ℤ) (4 : ℤ) 2 =
        .ok (ts, ((arrC4.cols / 4 : ℕ) : ℤ), ((arrC4.rows / 3 : ℕ) : ℤ)) ∧
      ∀ t ∈ ts, t.chans = arrC4.chans ∧
        (∀ k, k ≤ 2 → ∀ j c,
          t.data (2 - k) j c = t.data (2 + k) j c ∧
          t.data (2 + (3 - 1) + k) j c = t.data (2 + (3 - 1 - k)) j c) ∧
        (∀ k, k ≤ 2 → ∀ i c,
          t.data i (2 - k) c = t.data i (2 + k) c ∧
          t.data i (2 + (4 - 1) + k) c = t.data i (2 + (4 - 1 - k)) c) :=
  C4_reflect_pad arrC4 3 4 2 (by norm_num) (by norm_num) (by norm_num) (by norm_num)
    (by norm_num)

theorem mtTiles_get (arr : Arr3) (tr tc pad ndx : ℕ)
    (h : ndx < arr.rows / tr * (arr.cols / tc)) :
    (mtTiles arr tr tc pad)[ndx]? =
      some (if pad = 0 then mtBase arr tr tc ndx
        else padReflect (mtBase arr tr tc ndx) pad) := by
  unfold mtTiles
  rw [List.getElem?_map, List.getElem?_range h]
  rfl

/-- C2: `make_tiles` enumerates tiles in row-major order — the tile at flat
index `ndx` holds (in its interior, offset by the pad) the source block at
row band `ndx / grid_cols` and column band `ndx % grid_cols` — and
`stitch_tiles` inverts this enumeration, placing the post-crop content of
tile `ndx` at output offset
`((ndx / grid_cols) * tile_rows, (ndx % grid_cols) * tile_cols)`. -/
theorem C2_row_major (arr : Arr3) (tr tc pad : ℕ) (htr : 0 < tr) (htc : 0 < tc)
    (ta : Arr4) (nx ny tcpt trpt crop : ℕ) (out : Arr3) :
    (∃ ts, make_tiles arr (tr : ℤ) (tc : ℤ) pad =
        .ok (ts, ((arr.cols / tc : ℕ) : ℤ), ((arr.rows / tr : ℕ) : ℤ)) ∧
      ∀ ndx i j k, ndx < arr.rows / tr * (arr.cols / tc) → i < tr → j < tc →
        ∃ t, ts[ndx]? = some t ∧
          t.data (pad + i) (pad + j) k =
            arr.data (ndx / (arr.cols / tc) * tr + i) (ndx % (arr.cols / tc) * tc + j) k) ∧
    (stitch_tiles ta nx ny tcpt trpt crop = .ok out → ta.n ≤ ny * nx →
      ta.rows - 2 * crop = trpt → ta.cols - 2 * crop = tcpt →
      ∀ ndx i j k, ndx < ta.n → i < trpt → j < tcpt → k < ta.chans →
        out.data (ndx / nx * trpt + i) (ndx % nx * tcpt + j) k =
          ta.data ndx (crop + i) (crop + j) k) := by
  constructor
  · refine ⟨mtTiles arr tr tc pad, make_tiles_pos_eq arr tr tc pad htr htc, ?_⟩
    intro ndx i j k hndx hi hj
    refine ⟨_, mtTiles_get arr tr tc pad ndx hndx, ?_⟩
    have hsr : (mtBase arr tr tc ndx).rows = tr := mtBase_rows _ _ _ _ hndx
    have hsc : (mtBase arr tr tc ndx).cols = tc := mtBase_cols _ _ _ _ hndx
    by_cases hp : pad = 0
    · subst hp
      rw [if_pos rfl]
      show arr.data (ndx / (arr.cols / tc) * tr + (0 + i))
          (ndx % (arr.cols / tc) * tc + (0 + j)) k =
        arr.data (ndx / (arr.cols / tc) * tr + i) (ndx % (arr.cols / tc) * tc + j) k
      rw [Nat.zero_add, Nat.zero_add]
    · rw [if_neg hp]
      show (mtBase arr tr tc ndx).data
          (reflIdx (mtBase arr tr tc ndx).rows pad (pad + i))
          (reflIdx (mtBase arr tr tc ndx).cols pad (pad + j)) k = _
      rw [hsr, hsc, reflIdx_interior tr pad i hi, reflIdx_interior tc pad j hj]
      rfl
  · intro hok hle hrows hcols ndx i j k hndx hi hj hk
    unfold stitch_tiles at hok
    have hndx2 : ndx < ny * nx := by omega
    have hnx : 0 < nx := by
      rcases Nat.eq_zero_or_pos nx with h0 | h0
      · rw [h0, Nat.mul_zero] at hndx2
        omega
      · exact h0
    have hcov : covers nx trpt tcpt ndx (ndx / nx * trpt + i) (ndx % nx * tcpt + j) :=
      ⟨Nat.le_add_right _ _, by omega, Nat.le_add_right _ _, by omega⟩
    have huniq : ∀ nd ∈ List.range ta.n,
        covers nx trpt tcpt nd (ndx / nx * trpt + i) (ndx % nx * tcpt + j) → nd = ndx := by
      intro nd hmem hcv
      exact covers_unique nx ny trpt tcpt _ _ nd ndx
        (by have := List.mem_range.mp hmem; omega) hndx2 hcv hcov
    have hval := stitchLoop_data_write ta nx ny trpt tcpt crop
      (ndx / nx * trpt + i) (ndx % nx * tcpt + j) k ndx (List.range ta.n) _ out
      (List.nodup_range ta.n) (List.mem_range.mpr hndx) hcov huniq hok
    rw [hval, tileSlice_data]
    rw [hrows, hcols]
    have hbi : ndx / nx * trpt + i - ndx / nx * trpt = i := by omega
    have hbj : ndx % nx * tcpt + j - ndx % nx * tcpt = j := by omega
    rw [hbi, hbj, bIdx_in_range trpt i hi, bIdx_in_range tcpt j hj,
      bIdx_in_range ta.chans k hk]

/-- Concrete inputs of the C2 witness: a 4-by-6 image tiled 2-by-3, and a
2-tile stack stitched on a 2-by-1 grid. -/
def arrC2 : Arr3 :=
  ⟨4, 6, 1, DType.uint8, fun i j _ => (6 * i + j : ℤ)⟩

def taC2 : Arr4 :=
  ⟨2, 2, 3, 1, DType.float64, fun t i j _ => (100 * t + 10 * i + j : ℤ)⟩

theorem C2_row_major_witness :
    ∃ ts, make_tiles arrC2 (2 : ℤ) (3 : ℤ) 0 =
        .ok (ts, ((arrC2.cols / 3 : ℕ) : ℤ), ((arrC2.rows / 2 : ℕ) : ℤ)) ∧
      ∀ ndx i j k, ndx < arrC2.rows / 2 * (arrC2.cols / 3) → i < 2 → j < 3 →
        ∃ t, ts[ndx]? = some t ∧
          t.data (0 + i) (0 + j) k =
            arrC2.data (ndx / (arrC2.cols / 3) * 2 + i) (ndx % (arrC2.cols / 3) * 3 + j) k :=
  (C2_row_major arrC2 2 3 0 (by norm_num) (by norm_num) taC2 2 1 3 2 0
    ⟨2 * 1, 3 * 2, 1, DType.float64, fun _ _ _ => 0⟩).1

/-- C1: partitioning an image whose dimensions are exact multiples of the
tile shape with `pad = 0`, stacking the tiles, and stitching with the
returned grid counts, the same per-tile dimensions and `crop = 0`,
reproduces the original image exactly — same shape and same samples. -/
theorem C1_roundtrip (dt : DType) (f : ℕ → ℕ → ℕ → ℤ) (r c tr tc ch : ℕ)
    (hr : 0 < r) (hc : 0 < c) (htr : 0 < tr) (htc : 0 < tc) :
    ∃ ts out,
      make_tiles ⟨r * tr, c * tc, ch, dt, f⟩ (tr : ℤ) (tc : ℤ) 0 =
        .ok (ts, (c : ℤ), (r : ℤ)) ∧
      stitch_tiles (stackTiles ts) c r tc tr 0 = .ok out ∧
      out.rows = r * tr ∧ out.cols = c * tc ∧ out.chans = ch ∧
      (∀ i j k, i < r * tr → j < c * tc → k < ch → out.data i j k = f i j k) := by
  set arr : Arr3 := ⟨r * tr, c * tc, ch, dt, f⟩ with harr
  have hgy : arr.rows / tr = r := by
    show r * tr / tr = r
    rw [Nat.mul_div_cancel _ htr]
  have hgx : arr.cols / tc = c := by
    show c * tc / tc = c
    rw [Nat.mul_div_cancel _ htc]
  have hmk := make_tiles_pos_eq arr tr tc 0 htr htc
  rw [hgx, hgy] at hmk
  set L := mtTiles arr tr tc 0 with hL
  have hts : L = (List.range (r * c)).map (mtBase arr tr tc) := by
    rw [hL]
    unfold mtTiles
    rw [hgx, hgy]
    simp
  have hN0 : 0 < r * c := Nat.mul_pos hr hc
  have hrcpos : 0 < arr.rows / tr * (arr.cols / tc) := by
    rw [hgx, hgy]
    exact hN0
  have hLget : ∀ ndx, ndx < r * c → L[ndx]? = some (mtBase arr tr tc ndx) := by
    intro ndx h
    rw [hts, List.getElem?_map, List.getElem?_range h]
    rfl
  have hlen : L.length = r * c := by
    rw [hts]
    simp
  have hhead : L.head? = some (mtBase arr tr tc 0) := by
    rw [List.head?_eq_getElem?]
    exact hLget 0 hN0
  set ta := stackTiles L with hta
  have htarows : ta.rows = tr := by
    show (L.head?.map Arr3.rows).getD 0 = tr
    rw [hhead]
    exact mtBase_rows arr tr tc 0 hrcpos
  have htacols : ta.cols = tc := by
    show (L.head?.map Arr3.cols).getD 0 = tc
    rw [hhead]
    exact mtBase_cols arr tr tc 0 hrcpos
  have htachans : ta.chans = ch := by
    show (L.head?.map Arr3.chans).getD 0 = ch
    rw [hhead]
    rfl
  have htan : ta.n = r * c := hlen
  have htadata : ∀ ndx i j k, ndx < r * c →
      ta.data ndx i j k = (mtBase arr tr tc ndx).data i j k := by
    intro ndx i j k h
    show ((L[ndx]?.map fun a => a.data i j k)).getD 0 = _
    rw [hLget ndx h]
    rfl
  have hBC : bcOk (ta.rows - 2 * 0) (ta.cols - 2 * 0) ta.chans tr tc ta.chans = true := by
    rw [htarows, htacols]
    simp [bcOk]
  obtain ⟨out, hout⟩ : ∃ out, stitch_tiles ta c r tc tr 0 = .ok out := by
    unfold stitch_tiles
    rw [stitchLoop_ok_iff]
    intro ndx hmem
    have hm := List.mem_range.mp hmem
    exact ⟨by omega, hBC⟩
  have hloop : stitchLoop ta c r tr tc 0
      ⟨tr * r, tc * c, ta.chans, DType.float64, fun _ _ _ => 0⟩ (List.range ta.n) =
      .ok out := hout
  have hsh := stitchLoop_shape ta c r tr tc 0 (List.range ta.n) _ out hloop
  refine ⟨L, out, hmk, hout, ?_, ?_, ?_, ?_⟩
  · exact hsh.1.trans (Nat.mul_comm tr r)
  · exact hsh.2.1.trans (Nat.mul_comm tc c)
  · exact hsh.2.2.1.trans htachans
  · intro i j k hi hj hk
    have hia : i / tr < r := (Nat.div_lt_iff_lt_mul htr).mpr hi
    have hjb : j / tc < c := (Nat.div_lt_iff_lt_mul htc).mpr hj
    set ndx := i / tr * c + j / tc with hndx
    have hndxlt : ndx < r * c := by
      have h1 : ndx < (i / tr + 1) * c := by
        rw [hndx]
        calc i / tr * c + j / tc < i / tr * c + c := by omega
        _ = (i / tr + 1) * c := by ring
      have h2 : (i / tr + 1) * c ≤ r * c := Nat.mul_le_mul_right c (by omega)
      omega
    have hdiv : ndx / c = i / tr := by
      rw [hndx, Nat.mul_comm (i / tr) c, Nat.mul_add_div hc, Nat.div_eq_of_lt hjb,
        Nat.add_zero]
    have hmod : ndx % c = j / tc := by
      rw [hndx, Nat.mul_comm (i / tr) c, Nat.mul_add_mod, Nat.mod_eq_of_lt hjb]
    have ei := Nat.div_add_mod i tr
    have ej := Nat.div_add_mod j tc
    have eim : tr * (i / tr) = i / tr * tr := Nat.mul_comm _ _
    have ejm : tc * (j / tc) = j / tc * tc := Nat.mul_comm _ _
    have him : i % tr < tr := Nat.mod_lt _ htr
    have hjm : j % tc < tc := Nat.mod_lt _ htc
    have hcov : covers c tr tc ndx i j := by
      unfold covers
      rw [hdiv, hmod]
      refine ⟨by omega, by omega, by omega, by omega⟩
    have huniq : ∀ nd ∈ List.range ta.n, covers c tr tc nd i j → nd = ndx := by
      intro nd hmem hcv
      refine covers_unique c r tr tc i j nd ndx ?_ (by omega) hcv hcov
      have := List.mem_range.mp hmem
      omega
    have hval := stitchLoop_data_write ta c r tr tc 0 i j k ndx (List.range ta.n) _ out
      (List.nodup_range ta.n) (List.mem_range.mpr (by omega)) hcov huniq hloop
    rw [hval, tileSlice_data]
    simp only [Nat.mul_zero, Nat.sub_zero, Nat.zero_add] at *
    have hii : i - ndx / c * tr = i % tr := by
      rw [hdiv]
      omega
    have hjj : j - ndx % c * tc = j % tc := by
      rw [hmod]
      omega
    rw [htarows, htacols, htachans, hii, hjj, bIdx_in_range tr _ him,
      bIdx_in_range tc _ hjm, bIdx_in_range ch k hk]
    rw [htadata ndx _ _ _ (by omega)]
    show f (ndx / (arr.cols / tc) * tr + i % tr) (ndx % (arr.cols / tc) * tc + j % tc) k =
      f i j k
    rw [hgx, hdiv, hmod]
    have hfi : i / tr * tr + i % tr = i := by omega
    have hfj : j / tc * tc + j % tc = j := by omega
    rw [hfi, hfj]

theorem C1_roundtrip_witness :
    ∃ ts out,
      make_tiles ⟨2 * 1, 1 * 3, 1, DType.uint8, fun i j _ => (10 * i + j : ℤ)⟩
        (1 : ℤ) (3 : ℤ) 0 = .ok (ts, (1 : ℤ), (2 : ℤ)) ∧
      stitch_tiles (stackTiles ts) 1 2 3 1 0 = .ok out ∧
      out.rows = 2 * 1 ∧ out.cols = 1 * 3 ∧ out.chans = 1 ∧
      (∀ i j k, i < 2 * 1 → j < 1 * 3 → k < 1 →
        out.data i j k = (fun i j (_ : ℕ) => (10 * i + j : ℤ)) i j k) :=
  C1_roundtrip DType.uint8 (fun i j _ => (10 * i + j : ℤ)) 2 1 1 3 1
    (by norm_num) (by norm_num) (by norm_num) (by norm_num)

end CityPerimeter
